import Mathlib

/-!
Embedding of `src/ingest.py`: whitespace normalisation (`_clean_text`) and the
page chunker (`chunk_text`). Python strings are modelled as `List Char`, the
integer parameters as `Int` (so that negative `overlap` is expressible), and a
raised `ValueError` as `Except.error` carrying the message.
-/

/-- Whitespace characters recognised by Python `str.split()` / `str.strip()`:
the characters for which Python `str.isspace()` holds — the ASCII whitespace
characters 09-0d and 20, the separators 1c-1f, next-line 85, no-break space
a0, and the Unicode space (Zs), line (Zl) and paragraph (Zp) separators. -/
def isSpaceChar (c : Char) : Bool :=
  [' ', '\t', '\n', '\r', '\x0b', '\x0c', '\x1c', '\x1d', '\x1e', '\x1f',
   '\x85', '\xa0', '\u1680', '\u2000', '\u2001', '\u2002', '\u2003', '\u2004',
   '\u2005', '\u2006', '\u2007', '\u2008', '\u2009', '\u200a', '\u2028',
   '\u2029', '\u202f', '\u205f', '\u3000'].contains c

/-- Accumulator pass of Python `str.split()` with no separator argument:
maximal runs of whitespace separate words and no empty words are produced.
`acc` holds the characters of the current word in reverse. -/
def splitWsAux : List Char → List Char → List (List Char)
  | [], acc => if acc = [] then [] else [acc.reverse]
  | c :: rest, acc =>
    if isSpaceChar c then
      (if acc = [] then [] else [acc.reverse]) ++ splitWsAux rest []
    else
      splitWsAux rest (c :: acc)

/-- Python `s.split()` (no separator argument). -/
def splitWs (s : List Char) : List (List Char) := splitWsAux s []

/-- Python `s.strip()`. -/
def pyStrip (s : List Char) : List Char :=
  ((s.dropWhile isSpaceChar).reverse.dropWhile isSpaceChar).reverse

/-- Python `" ".join(words)`. -/
def joinWords : List (List Char) → List Char
  | [] => []
  | [w] => w
  | w :: ws => w ++ ' ' :: joinWords ws

/-- Function `_clean_text` from `src/ingest.py`: `" ".join(text.strip().split())`. -/
def _clean_text (text : List Char) : List Char :=
  joinWords (splitWs (pyStrip text))

/-- One chunk record: the dict `{text, page, chunk_id, source}` built inside
`chunk_text`. -/
structure Chunk where
  text : List Char
  page : Nat
  chunk_id : String
  source : String
deriving DecidableEq

/-- The id string `f"{i}-{n}"` of a chunk. -/
def chunkId (i n : Nat) : String := toString i ++ "-" ++ toString n

/-- The inner `while idx < len(page_text)` loop of `chunk_text` for the page
numbered `page`, translated with an explicit iteration bound `fuel`. Since the
source only runs the loop with `step = chunk_size - overlap ≥ 1`, the index
grows every round and `fuel = page_text.length` iterations always suffice;
`chunkLoop_eq` below characterises the loop exactly under that bound. The
`part = []` test is the source's `if not part: break` safety net. -/
def chunkLoop (cs step page : Nat) (src : String) (t : List Char) :
    Nat → Nat → Nat → List Chunk
  | 0, _, _ => []
  | fuel + 1, idx, n =>
    if idx < t.length then
      let part := (t.drop idx).take cs
      if part = [] then []
      else
        { text := part, page := page, chunk_id := chunkId page n, source := src } ::
          chunkLoop cs step page src t fuel (idx + step) (n + 1)
    else []

/-- All chunks of one page: the loop entered with `idx = 0` and `n = 0`. -/
def pageChunks (cs step page : Nat) (src : String) (t : List Char) : List Chunk :=
  chunkLoop cs step page src t t.length 0 0

/-- The `for i, page_text in enumerate(pages, start=i0)` iteration of
`chunk_text`, collecting every page's chunks in encounter order. -/
def chunkPagesFrom (cs step : Nat) (src : String) : Nat → List (List Char) → List Chunk
  | _, [] => []
  | i, t :: ts => pageChunks cs step i src t ++ chunkPagesFrom cs step src (i + 1) ts

/-- Function `chunk_text` from `src/ingest.py`: validate `chunk_size` and `overlap`
(raising `ValueError` otherwise), then chunk each page with pages enumerated
from 1; `source_path or ""` becomes `Option.getD ("")`. -/
def chunk_text (pages : List (List Char)) (chunk_size : Int := 800)
    (overlap : Int := 120) (source_path : Option String := none) :
    Except String (List Chunk) :=
  if chunk_size ≤ 0 then
    Except.error ("chunk_size må være > 0")
  else if overlap < 0 ∨ overlap ≥ chunk_size then
    Except.error ("overlap må være >= 0 og < chunk_size")
  else
    Except.ok (chunkPagesFrom chunk_size.toNat (chunk_size - overlap).toNat
      (source_path.getD ("")) 1 pages)

/-- Ceiling division `⌈m / k⌉` on naturals (intended for `k > 0`). -/
def ceilNat (m k : Nat) : Nat := (m + k - 1) / k

/-- Accumulator form of decimal digit production, mirroring `Nat.toDigitsCore`
at base 10 but recursing on the value itself. -/
def reprAux (n : Nat) (ds : List Char) : List Char :=
  if n < 10 then Nat.digitChar n :: ds
  else reprAux (n / 10) (Nat.digitChar (n % 10) :: ds)
termination_by n
decreasing_by exact Nat.div_lt_self (by omega) (by omega)

/-- Python `enumerate(pages, start=i)`. -/
def enumPagesFrom : Nat → List (List Char) → List (Nat × List Char)
  | _, [] => []
  | i, t :: ts => (i, t) :: enumPagesFrom (i + 1) ts

/-- Stated from the claim's wording (the spec side of the refinement claim):
page `i` of text `T` contributes, for each `j < ceil(|T| / step)`, the record
whose text is the slice of `T` starting at `j * step` of length at most
`chunk_size`, with id `"i-j"`, page `i` and the given source. -/
def specChunks (cs step : Nat) (src : String) (pages : List (List Char)) : List Chunk :=
  ((enumPagesFrom 1 pages).map fun p =>
    (List.range (ceilNat p.2.length step)).map fun j =>
      { text := (p.2.drop (j * step)).take cs, page := p.1,
        chunk_id := chunkId p.1 j, source := src }).flatten

/-- Stated from the claim's wording (the spec side of the normalisation
claim): one left-to-right pass over the input in which every character that
is not whitespace is passed through unchanged, and each whitespace character
either opens a new maximal whitespace run — emitted as exactly one ASCII
space — or continues the current run and is emitted as nothing. The flag
`inRun` records whether the previous character was whitespace. -/
def collapseRuns : List Char → Bool → List Char
  | [], _ => []
  | c :: rest, inRun =>
    if isSpaceChar c then
      if inRun then collapseRuns rest true else ' ' :: collapseRuns rest true
    else c :: collapseRuns rest false

/-- Stated from the claim's wording: remove the leading and the trailing
whitespace run of the input, then replace every remaining maximal whitespace
run by a single ASCII space, keeping all other characters unchanged and in
order. -/
def specNormalize (s : List Char) : List Char :=
  collapseRuns (((s.dropWhile isSpaceChar).reverse.dropWhile isSpaceChar).reverse) false

/-! ### Characterisation of the chunking loop -/

theorem ceilNat_zero (k : Nat) : ceilNat 0 k = 0 := by
  unfold ceilNat
  cases k with
  | zero => rfl
  | succ k => exact Nat.div_eq_of_lt (by omega)

theorem ceilNat_succ (m k : Nat) (hk : 0 < k) (hm : 0 < m) :
    ceilNat m k = ceilNat (m - k) k + 1 := by
  unfold ceilNat
  rcases Nat.lt_or_ge k m with h | h
  · have h1 : m + k - 1 = (m - k - 1 + k) + k := by omega
    have h2 : m - k + k - 1 = (m - k - 1) + k := by omega
    rw [h1, h2, Nat.add_div_right _ hk, Nat.add_div_right _ hk]
  · have h1 : m - k = 0 := by omega
    have h2 : m + k - 1 = (m - 1) + k := by omega
    rw [h1, h2, Nat.add_div_right _ hk]
    have h3 : (m - 1) / k = 0 := Nat.div_eq_of_lt (by omega)
    have h4 : (0 + k - 1) / k = 0 := Nat.div_eq_of_lt (by omega)
    rw [h3, h4]

theorem chunkLoop_eq (cs step page : Nat) (src : String) (t : List Char)
    (hcs : 0 < cs) (hstep : 0 < step) :
    ∀ fuel idx n, t.length - idx ≤ fuel →
      chunkLoop cs step page src t fuel idx n =
        (List.range (ceilNat (t.length - idx) step)).map fun j =>
          { text := (t.drop (idx + j * step)).take cs, page := page,
            chunk_id := chunkId page (n + j), source := src } := by
  intro fuel
  induction fuel with
  | zero =>
    intro idx n h
    have h0 : t.length - idx = 0 := by omega
    rw [h0, ceilNat_zero]
    simp [chunkLoop]
  | succ fuel ih =>
    intro idx n h
    by_cases hidx : idx < t.length
    · have hm : 0 < t.length - idx := by omega
      have hpart : ¬((t.drop idx).take cs = []) := by
        intro hk
        have hlen := congrArg List.length hk
        simp [List.length_take, List.length_drop] at hlen
        omega
      rw [chunkLoop]
      simp only [if_pos hidx, if_neg hpart]
      rw [ceilNat_succ _ _ hstep hm, List.range_succ_eq_map, List.map_cons,
        List.map_map]
      congr 1
      · simp
      · rw [ih (idx + step) (n + 1) (by omega)]
        have harith : t.length - (idx + step) = t.length - idx - step := by omega
        rw [harith]
        apply List.map_congr_left
        intro j hj
        have hmul : idx + (j + 1) * step = idx + step + j * step := by
          rw [Nat.succ_mul]; omega
        have hadd : n + (j + 1) = n + 1 + j := by omega
        simp [Function.comp, hmul, hadd]
    · have h0 : t.length - idx = 0 := by omega
      rw [chunkLoop]
      simp [if_neg hidx, h0, ceilNat_zero]

/-- Closed form for one page's chunks: the `j`-th chunk is the slice starting
at `j * step` of length at most `cs`. -/
theorem pageChunks_eq (cs step page : Nat) (src : String) (t : List Char)
    (hcs : 0 < cs) (hstep : 0 < step) :
    pageChunks cs step page src t =
      (List.range (ceilNat t.length step)).map fun j =>
        { text := (t.drop (j * step)).take cs, page := page,
          chunk_id := chunkId page j, source := src } := by
  unfold pageChunks
  rw [chunkLoop_eq cs step page src t hcs hstep t.length 0 0 (by omega)]
  simp

theorem pageChunks_length (cs step page : Nat) (src : String) (t : List Char)
    (hcs : 0 < cs) (hstep : 0 < step) :
    (pageChunks cs step page src t).length = ceilNat t.length step := by
  rw [pageChunks_eq cs step page src t hcs hstep]
  simp

/-- Every chunk the loop emits carries the page number it was called with. -/
theorem chunkLoop_page (cs step page : Nat) (src : String) (t : List Char) :
    ∀ fuel idx n c, c ∈ chunkLoop cs step page src t fuel idx n → c.page = page := by
  intro fuel
  induction fuel with
  | zero => intro idx n c hc; simp [chunkLoop] at hc
  | succ fuel ih =>
    intro idx n c hc
    rw [chunkLoop] at hc
    by_cases hidx : idx < t.length
    · rw [if_pos hidx] at hc
      by_cases hpart : (t.drop idx).take cs = []
      · simp only [if_pos hpart] at hc
        simp at hc
      · simp only [if_neg hpart, List.mem_cons] at hc
        rcases hc with hc | hc
        · rw [hc]
        · exact ih _ _ _ hc
    · rw [if_neg hidx] at hc
      simp at hc

theorem pageChunks_page (cs step page : Nat) (src : String) (t : List Char)
    (c : Chunk) (hc : c ∈ pageChunks cs step page src t) : c.page = page :=
  chunkLoop_page cs step page src t _ _ _ c hc

/-- Chunking a concatenation of page lists splits accordingly, with the second
part enumerated from the shifted start index. -/
theorem chunkPagesFrom_append (cs step : Nat) (src : String) :
    ∀ (l1 l2 : List (List Char)) (i : Nat),
      chunkPagesFrom cs step src i (l1 ++ l2) =
        chunkPagesFrom cs step src i l1 ++ chunkPagesFrom cs step src (i + l1.length) l2 := by
  intro l1
  induction l1 with
  | nil => intro l2 i; simp [chunkPagesFrom]
  | cons t ts ih =>
    intro l2 i
    have hlen : i + (t :: ts).length = i + 1 + ts.length := by
      simp only [List.length_cons]; omega
    simp only [List.cons_append, chunkPagesFrom, List.append_eq]
    rw [ih, hlen, List.append_assoc]

/-- Page numbers of emitted chunks lie in the enumerated range. -/
theorem chunkPagesFrom_page_bounds (cs step : Nat) (src : String) :
    ∀ (pages : List (List Char)) (i : Nat) (c : Chunk),
      c ∈ chunkPagesFrom cs step src i pages → i ≤ c.page ∧ c.page < i + pages.length := by
  intro pages
  induction pages with
  | nil => intro i c hc; simp [chunkPagesFrom] at hc
  | cons t ts ih =>
    intro i c hc
    simp only [chunkPagesFrom, List.mem_append] at hc
    rcases hc with hc | hc
    · have := pageChunks_page cs step i src t c hc
      simp [this]
    · have := ih (i + 1) c hc
      constructor <;> [omega; (simp; omega)]

/-- Filtering the whole output on the page number of the page at position
`pre.length` recovers exactly that page's chunks. -/
theorem chunkPagesFrom_filter_page (cs step : Nat) (src : String)
    (pre post : List (List Char)) (t : List Char) :
    (chunkPagesFrom cs step src 1 (pre ++ t :: post)).filter
        (fun c => decide (c.page = pre.length + 1)) =
      pageChunks cs step (pre.length + 1) src t := by
  rw [chunkPagesFrom_append]
  simp only [chunkPagesFrom]
  rw [List.filter_append, List.filter_append]
  have hpre : (chunkPagesFrom cs step src 1 pre).filter
      (fun c => decide (c.page = pre.length + 1)) = [] := by
    apply List.filter_eq_nil_iff.mpr
    intro c hc
    have := chunkPagesFrom_page_bounds cs step src pre 1 c hc
    simp only [decide_eq_true_eq]
    omega
  have hmid : (pageChunks cs step (1 + pre.length) src t).filter
      (fun c => decide (c.page = pre.length + 1)) =
      pageChunks cs step (1 + pre.length) src t := by
    apply List.filter_eq_self.mpr
    intro c hc
    have := pageChunks_page cs step (1 + pre.length) src t c hc
    simp only [decide_eq_true_eq]
    omega
  have hpost : (chunkPagesFrom cs step src (1 + pre.length + 1) post).filter
      (fun c => decide (c.page = pre.length + 1)) = [] := by
    apply List.filter_eq_nil_iff.mpr
    intro c hc
    have := chunkPagesFrom_page_bounds cs step src post _ c hc
    simp only [decide_eq_true_eq]
    omega
  rw [hpre, hmid, hpost]
  have h1 : 1 + pre.length = pre.length + 1 := by omega
  simp [h1]

/-! ### Injectivity of the decimal components of `chunk_id` -/

theorem reprAux_unfold_lt (n : Nat) (h : n < 10) (ds : List Char) :
    reprAux n ds = Nat.digitChar n :: ds := by
  rw [reprAux, if_pos h]

theorem reprAux_unfold_ge (n : Nat) (h : ¬n < 10) (ds : List Char) :
    reprAux n ds = reprAux (n / 10) (Nat.digitChar (n % 10) :: ds) := by
  rw [reprAux, if_neg h]

theorem reprAux_append (n : Nat) : ∀ ds, reprAux n ds = reprAux n [] ++ ds := by
  induction n using Nat.strong_induction_on with
  | _ n ih =>
    intro ds
    by_cases h : n < 10
    · rw [reprAux_unfold_lt n h ds, reprAux_unfold_lt n h []]
      simp
    · have hd : n / 10 < n := Nat.div_lt_self (by omega) (by omega)
      rw [reprAux_unfold_ge n h ds, reprAux_unfold_ge n h [],
        ih (n / 10) hd (Nat.digitChar (n % 10) :: ds),
        ih (n / 10) hd [Nat.digitChar (n % 10)], List.append_assoc]
      simp

theorem toDigitsCore_eq_reprAux : ∀ fuel n ds, n < fuel →
    Nat.toDigitsCore 10 fuel n ds = reprAux n ds := by
  intro fuel
  induction fuel with
  | zero => intro n ds h; omega
  | succ fuel ih =>
    intro n ds h
    rw [Nat.toDigitsCore]
    by_cases h10 : n < 10
    · have hdiv : n / 10 = 0 := Nat.div_eq_of_lt h10
      rw [if_pos hdiv, reprAux_unfold_lt n h10, Nat.mod_eq_of_lt h10]
    · have hdiv : ¬(n / 10 = 0) := by
        intro h0
        have := (Nat.div_eq_zero_iff (by omega : 0 < 10)).mp h0
        omega
      have hlt : n / 10 < n := Nat.div_lt_self (by omega) (by omega)
      rw [if_neg hdiv, reprAux_unfold_ge n h10]
      exact ih (n / 10) _ (by omega)

theorem repr_data_eq_reprAux (n : Nat) : (Nat.repr n).data = reprAux n [] := by
  show (Nat.toDigits 10 n).asString.data = reprAux n []
  rw [Nat.toDigits, toDigitsCore_eq_reprAux (n + 1) n [] (by omega)]
  rfl

theorem digitChar_ne_dash : ∀ k, k < 10 → Nat.digitChar k ≠ '-' := by decide

theorem digitChar_inj_lt :
    ∀ a, a < 10 → ∀ b, b < 10 → Nat.digitChar a = Nat.digitChar b → a = b := by decide

theorem reprAux_ne_dash (n : Nat) :
    ∀ ds, (∀ c ∈ ds, c ≠ '-') → ∀ c ∈ reprAux n ds, c ≠ '-' := by
  induction n using Nat.strong_induction_on with
  | _ n ih =>
    intro ds hds c hc
    by_cases h : n < 10
    · rw [reprAux_unfold_lt n h] at hc
      rcases List.mem_cons.mp hc with h1 | h1
      · rw [h1]; exact digitChar_ne_dash n h
      · exact hds c h1
    · rw [reprAux_unfold_ge n h] at hc
      refine ih (n / 10) (Nat.div_lt_self (by omega) (by omega)) _ ?_ c hc
      intro x hx
      rcases List.mem_cons.mp hx with h1 | h1
      · rw [h1]; exact digitChar_ne_dash _ (Nat.mod_lt _ (by omega))
      · exact hds x h1

theorem reprAux_length_pos (n : Nat) : 0 < (reprAux n []).length := by
  by_cases h : n < 10
  · rw [reprAux_unfold_lt n h]; simp
  · rw [reprAux_unfold_ge n h, reprAux_append]; simp

theorem reprAux_inj : ∀ m n : Nat, reprAux m [] = reprAux n [] → m = n := by
  intro m
  induction m using Nat.strong_induction_on with
  | _ m ih =>
    intro n h
    by_cases hm : m < 10 <;> by_cases hn : n < 10
    · rw [reprAux_unfold_lt m hm, reprAux_unfold_lt n hn] at h
      simp only [List.cons.injEq] at h
      exact digitChar_inj_lt m hm n hn h.1
    · rw [reprAux_unfold_lt m hm, reprAux_unfold_ge n hn,
        reprAux_append (n / 10) [Nat.digitChar (n % 10)]] at h
      have hlen := congrArg List.length h
      have := reprAux_length_pos (n / 10)
      simp only [List.length_append, List.length_cons, List.length_nil] at hlen
      omega
    · rw [reprAux_unfold_ge m hm, reprAux_append (m / 10) [Nat.digitChar (m % 10)],
        reprAux_unfold_lt n hn] at h
      have hlen := congrArg List.length h
      have := reprAux_length_pos (m / 10)
      simp only [List.length_append, List.length_cons, List.length_nil] at hlen
      omega
    · rw [reprAux_unfold_ge m hm, reprAux_append (m / 10) [Nat.digitChar (m % 10)],
        reprAux_unfold_ge n hn, reprAux_append (n / 10) [Nat.digitChar (n % 10)]] at h
      have hsplit := List.append_inj' h (by simp)
      have h1 : m / 10 = n / 10 :=
        ih (m / 10) (Nat.div_lt_self (by omega) (by omega)) (n / 10) hsplit.1
      have h2 : m % 10 = n % 10 := by
        have := hsplit.2
        simp only [List.cons.injEq] at this
        exact digitChar_inj_lt _ (Nat.mod_lt _ (by omega)) _ (Nat.mod_lt _ (by omega)) this.1
      have hm10 := Nat.div_add_mod m 10
      have hn10 := Nat.div_add_mod n 10
      omega

theorem natRepr_data_inj (m n : Nat) (h : (Nat.repr m).data = (Nat.repr n).data) :
    m = n := by
  apply reprAux_inj
  rw [← repr_data_eq_reprAux, ← repr_data_eq_reprAux, h]

theorem natRepr_ne_dash (n : Nat) : ∀ c ∈ (Nat.repr n).data, c ≠ '-' := by
  rw [repr_data_eq_reprAux]
  exact reprAux_ne_dash n [] (by simp)

/-- Splitting at a separator character that occurs in neither left part. -/
theorem sep_split : ∀ a c b d : List Char, (∀ x ∈ a, x ≠ '-') → (∀ x ∈ c, x ≠ '-') →
    a ++ '-' :: b = c ++ '-' :: d → a = c ∧ b = d := by
  intro a
  induction a with
  | nil =>
    intro c b d _ hc h
    cases c with
    | nil => simpa using h
    | cons y ys =>
      simp only [List.nil_append, List.cons_append, List.cons.injEq] at h
      exact absurd h.1.symm (hc y (by simp))
  | cons x xs ih =>
    intro c b d ha hc h
    cases c with
    | nil =>
      simp only [List.cons_append, List.nil_append, List.cons.injEq] at h
      exact absurd h.1 (ha x (by simp))
    | cons y ys =>
      simp only [List.cons_append, List.cons.injEq] at h
      have := ih ys b d (fun z hz => ha z (by simp [hz])) (fun z hz => hc z (by simp [hz])) h.2
      exact ⟨by rw [h.1, this.1], this.2⟩

theorem chunkId_data (i n : Nat) :
    (chunkId i n).data = (Nat.repr i).data ++ '-' :: (Nat.repr n).data := by
  show ((toString i ++ "-") ++ toString n).data = _
  rw [String.data_append, String.data_append]
  show ((Nat.repr i).data ++ ['-']) ++ (Nat.repr n).data = _
  rw [List.append_assoc]
  rfl

theorem chunkId_inj (i1 n1 i2 n2 : Nat) (h : chunkId i1 n1 = chunkId i2 n2) :
    i1 = i2 ∧ n1 = n2 := by
  have hd := congrArg String.data h
  rw [chunkId_data, chunkId_data] at hd
  have hs := sep_split _ _ _ _ (natRepr_ne_dash i1) (natRepr_ne_dash i2) hd
  exact ⟨natRepr_data_inj _ _ hs.1, natRepr_data_inj _ _ hs.2⟩

/-! ### Uniqueness of `chunk_id` across the whole output -/

theorem chunkLoop_id_form (cs step page : Nat) (src : String) (t : List Char) :
    ∀ fuel idx n c, c ∈ chunkLoop cs step page src t fuel idx n →
      ∃ j, c.chunk_id = chunkId page j := by
  intro fuel
  induction fuel with
  | zero => intro idx n c hc; simp [chunkLoop] at hc
  | succ fuel ih =>
    intro idx n c hc
    rw [chunkLoop] at hc
    by_cases hidx : idx < t.length
    · rw [if_pos hidx] at hc
      by_cases hpart : (t.drop idx).take cs = []
      · simp only [if_pos hpart] at hc
        simp at hc
      · simp only [if_neg hpart, List.mem_cons] at hc
        rcases hc with hc | hc
        · exact ⟨n, by rw [hc]⟩
        · exact ih _ _ _ hc
    · rw [if_neg hidx] at hc
      simp at hc

theorem chunkPagesFrom_id_form (cs step : Nat) (src : String) :
    ∀ (pages : List (List Char)) (i : Nat) (c : Chunk),
      c ∈ chunkPagesFrom cs step src i pages → ∃ j, c.chunk_id = chunkId c.page j := by
  intro pages
  induction pages with
  | nil => intro i c hc; simp [chunkPagesFrom] at hc
  | cons t ts ih =>
    intro i c hc
    simp only [chunkPagesFrom, List.mem_append] at hc
    rcases hc with hc | hc
    · have hp := pageChunks_page cs step i src t c hc
      obtain ⟨j, hj⟩ := chunkLoop_id_form cs step i src t _ _ _ c hc
      exact ⟨j, by rw [hj, hp]⟩
    · exact ih (i + 1) c hc

theorem pageChunks_ids_nodup (cs step page : Nat) (src : String) (t : List Char)
    (hcs : 0 < cs) (hstep : 0 < step) :
    ((pageChunks cs step page src t).map fun c => c.chunk_id).Nodup := by
  rw [pageChunks_eq cs step page src t hcs hstep, List.map_map]
  refine List.Nodup.map ?_ (List.nodup_range _)
  intro a b hab
  exact (chunkId_inj page a page b hab).2

theorem chunkPagesFrom_ids_nodup (cs step : Nat) (src : String)
    (hcs : 0 < cs) (hstep : 0 < step) :
    ∀ (pages : List (List Char)) (i : Nat),
      ((chunkPagesFrom cs step src i pages).map fun c => c.chunk_id).Nodup := by
  intro pages
  induction pages with
  | nil => intro i; simp [chunkPagesFrom]
  | cons t ts ih =>
    intro i
    simp only [chunkPagesFrom, List.map_append]
    rw [List.nodup_append]
    refine ⟨pageChunks_ids_nodup cs step i src t hcs hstep, ih (i + 1), ?_⟩
    intro x hx hx2
    rcases List.mem_map.mp hx with ⟨c1, hc1, rfl⟩
    rcases List.mem_map.mp hx2 with ⟨c2, hc2, heq⟩
    obtain ⟨j1, hj1⟩ := chunkLoop_id_form cs step i src t _ _ _ c1 hc1
    obtain ⟨j2, hj2⟩ := chunkPagesFrom_id_form cs step src ts (i + 1) c2 hc2
    have hb := chunkPagesFrom_page_bounds cs step src ts (i + 1) c2 hc2
    rw [hj1, hj2] at heq
    have := (chunkId_inj _ _ _ _ heq).1
    omega

/-! ### Normalizer postconditions -/

theorem splitWsAux_words : ∀ (s acc : List Char), (∀ c ∈ acc, isSpaceChar c = false) →
    ∀ w ∈ splitWsAux s acc, w ≠ [] ∧ ∀ c ∈ w, isSpaceChar c = false := by
  intro s
  induction s with
  | nil =>
    intro acc hacc w hw
    rw [splitWsAux] at hw
    by_cases h : acc = []
    · rw [if_pos h] at hw; simp at hw
    · rw [if_neg h] at hw
      simp only [List.mem_singleton] at hw
      subst hw
      exact ⟨by simpa using h, fun c hc => hacc c (List.mem_reverse.mp hc)⟩
  | cons a rest ih =>
    intro acc hacc w hw
    rw [splitWsAux] at hw
    by_cases h : isSpaceChar a = true
    · rw [if_pos h] at hw
      rcases List.mem_append.mp hw with h1 | h1
      · by_cases h2 : acc = []
        · rw [if_pos h2] at h1; simp at h1
        · rw [if_neg h2] at h1
          simp only [List.mem_singleton] at h1
          subst h1
          exact ⟨by simpa using h2, fun c hc => hacc c (List.mem_reverse.mp hc)⟩
      · exact ih [] (by simp) w h1
    · rw [if_neg h] at hw
      refine ih (a :: acc) ?_ w hw
      intro c hc
      rcases List.mem_cons.mp hc with h1 | h1
      · rw [h1]; simpa using h
      · exact hacc c h1

theorem chain'_nonspace (l : List Char) (hl : ∀ c ∈ l, isSpaceChar c = false) :
    List.Chain' (fun a b => ¬(isSpaceChar a = true ∧ isSpaceChar b = true)) l := by
  induction l with
  | nil => simp
  | cons a l ih =>
    rw [List.chain'_cons']
    refine ⟨?_, ih fun c hc => hl c (List.mem_cons_of_mem a hc)⟩
    intro y _ hcontra
    have := hl a (by simp)
    simp [this] at hcontra

theorem joinWords_ne_nil : ∀ ws : List (List Char), ws ≠ [] → (∀ w ∈ ws, w ≠ []) →
    joinWords ws ≠ [] := by
  intro ws
  match ws with
  | [] => intro h _; exact absurd rfl h
  | [w] =>
    intro _ hw
    have : joinWords [w] = w := rfl
    rw [this]
    exact hw w (by simp)
  | w :: v :: ws =>
    intro _ hw
    have hj : joinWords (w :: v :: ws) = w ++ ' ' :: joinWords (v :: ws) := rfl
    rw [hj]
    intro hcontra
    have := List.append_eq_nil.mp hcontra
    simp at this

theorem joinWords_props : ∀ ws : List (List Char),
    (∀ w ∈ ws, w ≠ [] ∧ ∀ c ∈ w, isSpaceChar c = false) →
    (∀ c, (joinWords ws).head? = some c → isSpaceChar c = false) ∧
    (∀ c, (joinWords ws).getLast? = some c → isSpaceChar c = false) ∧
    List.Chain' (fun a b => ¬(isSpaceChar a = true ∧ isSpaceChar b = true)) (joinWords ws) ∧
    (∀ c ∈ joinWords ws, isSpaceChar c = true → c = ' ') := by
  intro ws
  induction ws with
  | nil => intro _; simp [joinWords]
  | cons w ws ih =>
    intro hws
    have hw := hws w (by simp)
    cases ws with
    | nil =>
      have hj : joinWords [w] = w := rfl
      refine ⟨?_, ?_, ?_, ?_⟩
      · intro c hc
        rw [hj] at hc
        exact hw.2 c (List.mem_of_mem_head? hc)
      · intro c hc
        rw [hj] at hc
        exact hw.2 c (List.mem_of_getLast?_eq_some hc)
      · rw [hj]; exact chain'_nonspace w hw.2
      · intro c hc hsp
        rw [hj] at hc
        have := hw.2 c hc
        simp [this] at hsp
    | cons v ws2 =>
      have hrest := ih (fun u hu => hws u (by simp [hu]))
      have hrestne : joinWords (v :: ws2) ≠ [] :=
        joinWords_ne_nil _ (by simp) (fun u hu => (hws u (by simp [hu])).1)
      have hj : joinWords (w :: v :: ws2) = w ++ ' ' :: joinWords (v :: ws2) := rfl
      refine ⟨?_, ?_, ?_, ?_⟩
      · intro c hc
        rw [hj, List.head?_append] at hc
        cases hwh : w.head? with
        | none =>
          have : w = [] := List.head?_eq_none_iff.mp hwh
          exact absurd this hw.1
        | some x =>
          rw [hwh] at hc
          simp only [Option.or_some] at hc
          have hxc : x = c := by injection hc
          subst hxc
          exact hw.2 x (List.mem_of_mem_head? hwh)
      · intro c hc
        have h2 : w ++ ' ' :: joinWords (v :: ws2) =
            (w ++ [' ']) ++ joinWords (v :: ws2) := by simp
        rw [hj, h2, List.getLast?_append] at hc
        cases hl : (joinWords (v :: ws2)).getLast? with
        | none =>
          have : joinWords (v :: ws2) = [] := by
            cases hcase : joinWords (v :: ws2) with
            | nil => rfl
            | cons z zs => rw [hcase] at hl; simp [List.getLast?] at hl
          exact absurd this hrestne
        | some x =>
          rw [hl] at hc
          simp only [Option.or_some] at hc
          have hxc : x = c := by injection hc
          subst hxc
          exact hrest.2.1 x hl
      · rw [hj, List.chain'_append]
        refine ⟨chain'_nonspace w hw.2, ?_, ?_⟩
        · rw [List.chain'_cons']
          refine ⟨?_, hrest.2.2.1⟩
          intro y hy hcontra
          have := hrest.1 y hy
          simp [this] at hcontra
        · intro x hx y _ hcontra
          have hxw : x ∈ w := List.mem_of_getLast?_eq_some hx
          have := hw.2 x hxw
          simp [this] at hcontra
      · intro c hc hsp
        rw [hj] at hc
        rcases List.mem_append.mp hc with h1 | h1
        · have := hw.2 c h1
          simp [this] at hsp
        · rcases List.mem_cons.mp h1 with h2 | h2
          · exact h2
          · exact hrest.2.2.2 c h2 hsp

/-! ### The normalizer realises the run-collapsing relation -/

theorem head?_dropWhile_false (p : Char → Bool) :
    ∀ (l : List Char) (c : Char), (l.dropWhile p).head? = some c → p c = false := by
  intro l
  induction l with
  | nil => intro c hc; simp [List.dropWhile] at hc
  | cons a r ih =>
    intro c hc
    rw [List.dropWhile_cons] at hc
    by_cases h : p a = true
    · rw [if_pos h] at hc
      exact ih c hc
    · rw [if_neg h] at hc
      have hac : a = c := by simpa using hc
      subst hac
      simpa using h

theorem pyStrip_trail (s : List Char) :
    ∀ c, (pyStrip s).getLast? = some c → isSpaceChar c = false := by
  intro c hc
  unfold pyStrip at hc
  rw [List.getLast?_reverse] at hc
  exact head?_dropWhile_false isSpaceChar _ c hc

theorem pyStrip_head (s : List Char) :
    ∀ c, (pyStrip s).head? = some c → isSpaceChar c = false := by
  intro c hc
  unfold pyStrip at hc
  rw [List.head?_reverse] at hc
  have hsplit : ((s.dropWhile isSpaceChar).reverse).getLast? = some c := by
    have htd : ((s.dropWhile isSpaceChar).reverse).takeWhile isSpaceChar ++
        ((s.dropWhile isSpaceChar).reverse).dropWhile isSpaceChar =
        (s.dropWhile isSpaceChar).reverse :=
      List.takeWhile_append_dropWhile isSpaceChar ((s.dropWhile isSpaceChar).reverse)
    rw [← htd, List.getLast?_append, hc]
    rfl
  rw [List.getLast?_reverse] at hsplit
  exact head?_dropWhile_false isSpaceChar s c hsplit

theorem splitWsAux_ne_nil_acc : ∀ (s acc : List Char), acc ≠ [] →
    splitWsAux s acc ≠ [] := by
  intro s
  induction s with
  | nil =>
    intro acc hacc
    rw [splitWsAux, if_neg hacc]
    simp
  | cons a r ih =>
    intro acc hacc
    rw [splitWsAux]
    by_cases h : isSpaceChar a = true
    · rw [if_pos h, if_neg hacc]
      simp
    · rw [if_neg h]
      exact ih (a :: acc) (by simp)

theorem splitWsAux_ne_nil_of_trail : ∀ r : List Char, r ≠ [] →
    (∀ c, r.getLast? = some c → isSpaceChar c = false) → splitWsAux r [] ≠ [] := by
  intro r
  induction r with
  | nil => intro h _; exact absurd rfl h
  | cons x r2 ih =>
    intro _ htrail
    cases r2 with
    | nil =>
      have hx : isSpaceChar x = false := htrail x (by simp)
      rw [splitWsAux, if_neg (by simp [hx]), splitWsAux, if_neg (by simp)]
      simp
    | cons y r3 =>
      have htrail2 : ∀ c, (y :: r3).getLast? = some c → isSpaceChar c = false := by
        intro c hcc
        apply htrail
        rw [List.getLast?_cons_cons]
        exact hcc
      rw [splitWsAux]
      by_cases hx : isSpaceChar x = true
      · rw [if_pos hx]
        have h0 : (if ([] : List Char) = [] then ([] : List (List Char))
            else [([] : List Char).reverse]) = [] := rfl
        rw [h0, List.nil_append]
        exact ih (by simp) htrail2
      · rw [if_neg hx]
        exact splitWsAux_ne_nil_acc (y :: r3) [x] (by simp)

/-- A string whose trailing character is not whitespace splits and rejoins to
exactly its run-collapsed form; stated with the loop flag (`true`: start as if
a whitespace run just ended, empty accumulator) and with a pending reversed
word `acc` (flag `false`). -/
theorem splitWsAux_collapseRuns : ∀ s : List Char,
    (∀ c, s.getLast? = some c → isSpaceChar c = false) →
    (joinWords (splitWsAux s []) = collapseRuns s true) ∧
    (∀ acc, acc ≠ [] →
      joinWords (splitWsAux s acc) = acc.reverse ++ collapseRuns s false) := by
  intro s
  induction s with
  | nil =>
    intro _
    constructor
    · rfl
    · intro acc hacc
      rw [splitWsAux, if_neg hacc]
      show acc.reverse = acc.reverse ++ collapseRuns [] false
      rw [show collapseRuns [] false = ([] : List Char) from rfl, List.append_nil]
  | cons c r ih =>
    intro htrail
    have htrail_r : ∀ x, r.getLast? = some x → isSpaceChar x = false := by
      intro x hx
      cases r with
      | nil => simp at hx
      | cons y r2 =>
        apply htrail
        rw [List.getLast?_cons_cons]
        exact hx
    obtain ⟨ih0, ih1⟩ := ih htrail_r
    by_cases hc : isSpaceChar c = true
    · have hr_ne : r ≠ [] := by
        intro h0
        subst h0
        have := htrail c (by simp)
        rw [this] at hc
        exact absurd hc (by simp)
      have hsne : splitWsAux r [] ≠ [] := splitWsAux_ne_nil_of_trail r hr_ne htrail_r
      constructor
      · rw [splitWsAux, if_pos hc]
        have h0 : (if ([] : List Char) = [] then ([] : List (List Char))
            else [([] : List Char).reverse]) = [] := rfl
        rw [h0, List.nil_append, ih0, collapseRuns, if_pos hc, if_pos rfl]
      · intro acc hacc
        rw [splitWsAux, if_pos hc, if_neg hacc]
        cases hsp : splitWsAux r [] with
        | nil => exact absurd hsp hsne
        | cons y ys =>
          show acc.reverse ++ ' ' :: joinWords (y :: ys) = _
          rw [← hsp, ih0, collapseRuns, if_pos hc, if_neg (by simp)]
    · constructor
      · rw [splitWsAux, if_neg hc, ih1 [c] (by simp), collapseRuns, if_neg hc]
        rfl
      · intro acc hacc
        rw [splitWsAux, if_neg hc, ih1 (c :: acc) (by simp), collapseRuns, if_neg hc,
          List.reverse_cons, List.append_assoc]
        rfl

theorem collapseRuns_true_eq_false (u : List Char)
    (hu : ∀ c, u.head? = some c → isSpaceChar c = false) :
    collapseRuns u true = collapseRuns u false := by
  cases u with
  | nil => rfl
  | cons f u2 =>
    have hf : isSpaceChar f = false := hu f rfl
    rw [collapseRuns, collapseRuns, if_neg (by simp [hf]), if_neg (by simp [hf])]

/-- `_clean_text` computes exactly the claim's input-output relation: trim the
edge whitespace runs, collapse each remaining maximal whitespace run to one
ASCII space, pass all other characters through unchanged. -/
theorem clean_text_eq_specNormalize (s : List Char) : _clean_text s = specNormalize s := by
  show joinWords (splitWsAux (pyStrip s) []) = collapseRuns (pyStrip s) false
  rw [(splitWsAux_collapseRuns (pyStrip s) (pyStrip_trail s)).1]
  exact collapseRuns_true_eq_false (pyStrip s) (pyStrip_head s)

/-! ### Remaining helper lemmas -/

theorem chunk_text_ok (pages : List (List Char)) (cs ov : Int) (src : Option String)
    (h1 : 0 < cs) (h2 : 0 ≤ ov) (h3 : ov < cs) :
    chunk_text pages cs ov src =
      Except.ok (chunkPagesFrom cs.toNat (cs - ov).toNat (src.getD ("")) 1 pages) := by
  unfold chunk_text
  rw [if_neg (by omega), if_neg (by omega)]

theorem chunk_text_filter (cs ov : Int) (src : Option String)
    (pre post : List (List Char)) (t : List Char)
    (h1 : 0 < cs) (h2 : 0 ≤ ov) (h3 : ov < cs) :
    ∃ l, chunk_text (pre ++ t :: post) cs ov src = Except.ok l ∧
      l.filter (fun c => decide (c.page = pre.length + 1)) =
        pageChunks cs.toNat (cs - ov).toNat (pre.length + 1) (src.getD ("")) t :=
  ⟨_, chunk_text_ok (pre ++ t :: post) cs ov src h1 h2 h3,
    chunkPagesFrom_filter_page cs.toNat (cs - ov).toNat (src.getD ("")) pre post t⟩

theorem chunkLoop_join (cs page : Nat) (src : String) (t : List Char) (hcs : 0 < cs) :
    ∀ fuel idx n, t.length - idx ≤ fuel →
      ((chunkLoop cs cs page src t fuel idx n).map fun c => c.text).flatten = t.drop idx := by
  intro fuel
  induction fuel with
  | zero =>
    intro idx n h
    rw [List.drop_eq_nil_of_le (by omega)]
    simp [chunkLoop]
  | succ fuel ih =>
    intro idx n h
    rw [chunkLoop]
    by_cases hidx : idx < t.length
    · have hpart : ¬((t.drop idx).take cs = []) := by
        intro hk
        have hlen := congrArg List.length hk
        simp [List.length_take, List.length_drop] at hlen
        omega
      rw [if_pos hidx]
      simp only [if_neg hpart, List.map_cons, List.flatten_cons]
      rw [ih (idx + cs) (n + 1) (by omega)]
      have hd : t.drop (idx + cs) = (t.drop idx).drop cs := by rw [List.drop_drop]
      rw [hd, List.take_append_drop]
    · rw [if_neg hidx, List.drop_eq_nil_of_le (by omega)]
      simp

theorem pageChunks_join (cs page : Nat) (src : String) (t : List Char) (hcs : 0 < cs) :
    ((pageChunks cs cs page src t).map fun c => c.text).flatten = t := by
  unfold pageChunks
  rw [chunkLoop_join cs page src t hcs t.length 0 0 (by omega)]
  simp

theorem chunkPagesFrom_eq_spec (cs step : Nat) (src : String)
    (hcs : 0 < cs) (hstep : 0 < step) :
    ∀ (pages : List (List Char)) (i : Nat),
      chunkPagesFrom cs step src i pages =
        ((enumPagesFrom i pages).map fun p =>
          (List.range (ceilNat p.2.length step)).map fun j =>
            { text := (p.2.drop (j * step)).take cs, page := p.1,
              chunk_id := chunkId p.1 j, source := src }).flatten := by
  intro pages
  induction pages with
  | nil => intro i; simp [chunkPagesFrom, enumPagesFrom]
  | cons t ts ih =>
    intro i
    simp only [chunkPagesFrom, enumPagesFrom, List.map_cons, List.flatten_cons]
    rw [ih (i + 1), pageChunks_eq cs step i src t hcs hstep]

theorem ceilNat_eq (m k : Nat) (hk : 0 < k) (hm : 0 < m) : ceilNat m k = (m - 1) / k + 1 := by
  unfold ceilNat
  have h2 : m + k - 1 = (m - 1) + k := by omega
  rw [h2, Nat.add_div_right _ hk]

theorem slice_coverage (L step cs pos : Nat) (hstep : 0 < step) (hcs : step ≤ cs)
    (hpos : pos < L) :
    ∃ j < ceilNat L step, j * step ≤ pos ∧ pos < j * step + cs := by
  refine ⟨pos / step, ?_, ?_, ?_⟩
  · have hle : pos / step ≤ (L - 1) / step := Nat.div_le_div_right (by omega)
    rw [ceilNat_eq L step hstep (by omega)]
    omega
  · exact Nat.div_mul_le_self pos step
  · have hdm := Nat.div_add_mod pos step
    have hmod : pos % step < step := Nat.mod_lt _ hstep
    have hcomm : pos / step * step = step * (pos / step) := Nat.mul_comm _ _
    omega

/-! ### Claim theorems -/

/-- C1: end-to-end scenario. Calling `chunk_text` with pages `["abcdefghij"]`,
`chunk_size = 4`, `overlap = 2`, `source_path = "doc.pdf"` returns exactly the
five records with texts `"abcd"`, `"cdef"`, `"efgh"`, `"ghij"`, `"ij"`, ids
`"1-0"` … `"1-4"`, every record on page 1 with source `"doc.pdf"`. -/
theorem C1_end_to_end :
    chunk_text ["abcdefghij".data] 4 2 (some ("doc.pdf")) =
      Except.ok
        [⟨"abcd".data, 1, "1-0", "doc.pdf"⟩,
         ⟨"cdef".data, 1, "1-1", "doc.pdf"⟩,
         ⟨"efgh".data, 1, "1-2", "doc.pdf"⟩,
         ⟨"ghij".data, 1, "1-3", "doc.pdf"⟩,
         ⟨"ij".data, 1, "1-4", "doc.pdf"⟩] := by
  rfl

/-- C2 (counterexample): the claimed count formula fails on the spec's own
worked example. For pages `["abcdefghij"]` (`L = 10`), `chunk_size = 4`,
`overlap = 2`, the code produces 5 records on page 1, while the claimed
formula gives `ceil((L - overlap) / (chunk_size - overlap)) = 4`. -/
theorem C2_counterexample :
    (chunk_text ["abcdefghij".data] 4 2 none).map
        (fun l => (l.filter fun c => decide (c.page = 1)).length) = Except.ok 5 ∧
    ceilNat ("abcdefghij".data.length - 2) (4 - 2) = 4 ∧ (5 : Nat) ≠ 4 := by
  refine ⟨rfl, by decide, by decide⟩

/-- C2 (amended): for valid parameters and a page of length `L > 0`, the
number of records `chunk_text` produces for that page equals
`ceil(L / (chunk_size - overlap))` — with no case split on `L ≤ overlap`. -/
theorem C2_chunk_count (cs ov : Int) (src : Option String)
    (pre post : List (List Char)) (t : List Char)
    (h1 : 0 < cs) (h2 : 0 ≤ ov) (h3 : ov < cs) (ht : 0 < t.length) :
    ∃ l, chunk_text (pre ++ t :: post) cs ov src = Except.ok l ∧
      (l.filter fun c => decide (c.page = pre.length + 1)).length =
        ceilNat t.length (cs - ov).toNat := by
  obtain ⟨l, hl, hf⟩ := chunk_text_filter cs ov src pre post t h1 h2 h3
  refine ⟨l, hl, ?_⟩
  rw [hf, pageChunks_length _ _ _ _ _ (by omega) (by omega)]

theorem C2_chunk_count_witness :
    ∃ l, chunk_text ([] ++ "abc".data :: []) 4 2 none = Except.ok l ∧
      (l.filter fun c => decide (c.page = ([] : List (List Char)).length + 1)).length =
        ceilNat ("abc".data.length) ((4 : Int) - 2).toNat :=
  C2_chunk_count 4 2 none [] [] "abc".data (by decide) (by decide) (by decide) (by decide)

/-- C3 (counterexample): a chunk can be shorter than `chunk_size` without
being the final chunk of its page. For pages `["abcdefghi"]` (`L = 9`),
`chunk_size = 4`, `overlap = 2`, the record at index 3 has text `"ghi"` of
length `3 < 4` yet the record at index 4 is also on page 1. -/
theorem C3_counterexample :
    ∃ l, chunk_text ["abcdefghi".data] 4 2 none = Except.ok l ∧
      (l.map fun c => c.text.length) = [4, 4, 4, 3, 1] ∧
      (l.map fun c => c.page) = [1, 1, 1, 1, 1] := by
  refine ⟨_, rfl, by decide, by decide⟩

/-- C3 (amended): with valid parameters, every record of a page is a
contiguous substring of that page's text, of length at most `chunk_size`; it
is shorter than `chunk_size` only when its slice reaches the end of the page
text, i.e. its text is then a suffix of the page text (rather than only when
it is the final chunk of the page). -/
theorem C3_chunk_length (cs ov : Int) (src : Option String)
    (pre post : List (List Char)) (t : List Char)
    (h1 : 0 < cs) (h2 : 0 ≤ ov) (h3 : ov < cs) :
    ∃ l, chunk_text (pre ++ t :: post) cs ov src = Except.ok l ∧
      ∀ c ∈ l.filter fun c => decide (c.page = pre.length + 1),
        (∃ a b, t = a ++ c.text ++ b) ∧ c.text.length ≤ cs.toNat ∧
        (c.text.length < cs.toNat → ∃ a, t = a ++ c.text) := by
  obtain ⟨l, hl, hf⟩ := chunk_text_filter cs ov src pre post t h1 h2 h3
  refine ⟨l, hl, ?_⟩
  rw [hf, pageChunks_eq _ _ _ _ _ (by omega) (by omega)]
  intro c hc
  rcases List.mem_map.mp hc with ⟨j, hj, rfl⟩
  refine ⟨?_, ?_, ?_⟩
  · refine ⟨t.take (j * (cs - ov).toNat),
      (t.drop (j * (cs - ov).toNat)).drop cs.toNat, ?_⟩
    have e1 : (t.drop (j * (cs - ov).toNat)).take cs.toNat ++
        (t.drop (j * (cs - ov).toNat)).drop cs.toNat = t.drop (j * (cs - ov).toNat) :=
      List.take_append_drop _ _
    have e2 : t.take (j * (cs - ov).toNat) ++ t.drop (j * (cs - ov).toNat) = t :=
      List.take_append_drop _ _
    rw [List.append_assoc, e1, e2]
  · rw [List.length_take]
    exact min_le_left _ _
  · intro hlt
    have hlen : ((t.drop (j * (cs - ov).toNat)).take cs.toNat).length =
        min cs.toNat (t.length - j * (cs - ov).toNat) := by
      simp [List.length_take, List.length_drop]
    rw [hlen] at hlt
    have hsmall : t.length - j * (cs - ov).toNat < cs.toNat := by
      rcases Nat.lt_or_ge (t.length - j * (cs - ov).toNat) cs.toNat with h | h
      · exact h
      · rw [Nat.min_eq_left h] at hlt
        omega
    refine ⟨t.take (j * (cs - ov).toNat), ?_⟩
    have e3 : (t.drop (j * (cs - ov).toNat)).take cs.toNat = t.drop (j * (cs - ov).toNat) :=
      List.take_of_length_le (by rw [List.length_drop]; omega)
    rw [e3, List.take_append_drop]

theorem C3_chunk_length_witness :
    ∃ l, chunk_text ([] ++ "abcdefghi".data :: []) 4 2 none = Except.ok l ∧
      ∀ c ∈ l.filter fun c => decide (c.page = ([] : List (List Char)).length + 1),
        (∃ a b, "abcdefghi".data = a ++ c.text ++ b) ∧ c.text.length ≤ (4 : Int).toNat ∧
        (c.text.length < (4 : Int).toNat → ∃ a, "abcdefghi".data = a ++ c.text) :=
  C3_chunk_length 4 2 none [] [] "abcdefghi".data (by decide) (by decide) (by decide)

/-- C4 (counterexample): the overlap invariant fails for a pair whose later
element is not the page's final chunk. With `chunk_size = 10`, `overlap = 8`
(valid), page `"abcde"` yields three records `"abcde"`, `"cde"`, `"e"`; in the
pair (record 0, record 1) the later element is not final, yet the last 8
characters of `"abcde"` (the whole text) differ from the first 8 characters of
`"cde"`. -/
theorem C4_counterexample :
    ∃ l, chunk_text ["abcde".data] 10 8 none = Except.ok l ∧
      (l.map fun c => c.text) = ["abcde".data, "cde".data, "e".data] ∧
      (l.map fun c => c.page) = [1, 1, 1] ∧
      ¬("abcde".data.drop ("abcde".data.length - 8) = "cde".data.take 8) := by
  refine ⟨_, rfl, by decide, by decide, by decide⟩

/-- C4 (amended): with valid parameters, for each pair of consecutive records
of one page in which the earlier record's text has full length `chunk_size`,
the last `overlap` characters of the earlier text coincide with the first
`overlap` characters of the later text, and that shared part has length
exactly `overlap`. (Pairs whose earlier record is already short — which can
happen even before the final chunk — are the exception.) -/
theorem C4_overlap (cs ov : Int) (src : Option String)
    (pre post : List (List Char)) (t : List Char)
    (h1 : 0 < cs) (h2 : 0 ≤ ov) (h3 : ov < cs) :
    ∃ l, chunk_text (pre ++ t :: post) cs ov src = Except.ok l ∧
      ∀ j c1 c2,
        (l.filter fun c => decide (c.page = pre.length + 1))[j]? = some c1 →
        (l.filter fun c => decide (c.page = pre.length + 1))[j + 1]? = some c2 →
        c1.text.length = cs.toNat →
        c1.text.drop (c1.text.length - ov.toNat) = c2.text.take ov.toNat ∧
        (c1.text.drop (c1.text.length - ov.toNat)).length = ov.toNat := by
  obtain ⟨l, hl, hf⟩ := chunk_text_filter cs ov src pre post t h1 h2 h3
  refine ⟨l, hl, ?_⟩
  intro j c1 c2 hj1 hj2 hfull
  rw [hf, pageChunks_eq _ _ _ _ _ (by omega) (by omega)] at hj1 hj2
  have hj2c : j + 1 < ceilNat t.length (cs - ov).toNat := by
    by_contra hcon
    rw [List.getElem?_map, List.getElem?_eq_none (by simp [List.length_range]; omega)] at hj2
    simp at hj2
  have hj1c : j < ceilNat t.length (cs - ov).toNat := by omega
  rw [List.getElem?_map, List.getElem?_range hj1c] at hj1
  rw [List.getElem?_map, List.getElem?_range hj2c] at hj2
  simp only [Option.map_some', Option.some.injEq] at hj1 hj2
  subst hj1
  subst hj2
  constructor
  · rw [hfull]
    have hs : cs.toNat - ov.toNat = (cs - ov).toNat := by omega
    have ha : cs.toNat - (cs.toNat - ov.toNat) = ov.toNat := by omega
    have hb : j * (cs - ov).toNat + (cs - ov).toNat = (j + 1) * (cs - ov).toNat :=
      (Nat.succ_mul j _).symm
    have hc : min ov.toNat cs.toNat = ov.toNat := min_eq_left (by omega)
    rw [List.drop_take, List.drop_drop, List.take_take, ha, hs, hb, hc]
  · rw [List.length_drop, hfull]
    omega

theorem C4_overlap_witness :
    ∃ l, chunk_text ([] ++ "abcdefghij".data :: []) 4 2 none = Except.ok l ∧
      ∀ j c1 c2,
        (l.filter fun c => decide (c.page = ([] : List (List Char)).length + 1))[j]? = some c1 →
        (l.filter fun c => decide (c.page = ([] : List (List Char)).length + 1))[j + 1]? = some c2 →
        c1.text.length = (4 : Int).toNat →
        c1.text.drop (c1.text.length - (2 : Int).toNat) = c2.text.take (2 : Int).toNat ∧
        (c1.text.drop (c1.text.length - (2 : Int).toNat)).length = (2 : Int).toNat :=
  C4_overlap 4 2 none [] [] "abcdefghij".data (by decide) (by decide) (by decide)

/-- C5: parameter validation. `chunk_text` fails with the `InvalidParameter`
error exactly when `chunk_size ≤ 0` or `overlap < 0` or `overlap ≥
chunk_size`, for every pages input (including `[]`); with valid parameters it
returns a result, and on failure no record list is returned at all. -/
theorem C5_validation (cs ov : Int) (pages : List (List Char)) (src : Option String) :
    ((∃ e, chunk_text pages cs ov src = Except.error e) ↔ (cs ≤ 0 ∨ ov < 0 ∨ cs ≤ ov)) ∧
    ((∃ l, chunk_text pages cs ov src = Except.ok l) ↔ ¬(cs ≤ 0 ∨ ov < 0 ∨ cs ≤ ov)) := by
  by_cases h1 : cs ≤ 0
  · constructor
    · exact ⟨fun _ => Or.inl h1, fun _ => ⟨_, by unfold chunk_text; rw [if_pos h1]⟩⟩
    · constructor
      · rintro ⟨l, hl⟩
        unfold chunk_text at hl
        rw [if_pos h1] at hl
        exact absurd hl (by simp)
      · intro hn; exact absurd (Or.inl h1) hn
  · by_cases h2 : ov < 0 ∨ ov ≥ cs
    · have hd : cs ≤ 0 ∨ ov < 0 ∨ cs ≤ ov :=
        h2.elim (fun h => Or.inr (Or.inl h)) (fun h => Or.inr (Or.inr h))
      constructor
      · exact ⟨fun _ => hd, fun _ => ⟨_, by unfold chunk_text; rw [if_neg h1, if_pos h2]⟩⟩
      · constructor
        · rintro ⟨l, hl⟩
          unfold chunk_text at hl
          rw [if_neg h1, if_pos h2] at hl
          exact absurd hl (by simp)
        · intro hn; exact absurd hd hn
    · have hd : ¬(cs ≤ 0 ∨ ov < 0 ∨ cs ≤ ov) := by
        intro hcon
        rcases hcon with h | h | h
        · exact h1 h
        · exact h2 (Or.inl h)
        · exact h2 (Or.inr h)
      constructor
      · constructor
        · rintro ⟨e, he⟩
          unfold chunk_text at he
          rw [if_neg h1, if_neg h2] at he
          exact absurd he (by simp)
        · intro hcon; exact absurd hcon hd
      · exact ⟨fun _ => hd, fun _ => ⟨_, by unfold chunk_text; rw [if_neg h1, if_neg h2]⟩⟩

/-- C6: zero-overlap reconstruction. For `overlap = 0` and any `chunk_size >
0`, concatenating in order the texts of the records `chunk_text` produces for
a page yields exactly that page's text. -/
theorem C6_zero_overlap (cs : Int) (src : Option String)
    (pre post : List (List Char)) (t : List Char) (h1 : 0 < cs) :
    ∃ l, chunk_text (pre ++ t :: post) cs 0 src = Except.ok l ∧
      ((l.filter fun c => decide (c.page = pre.length + 1)).map fun c => c.text).flatten
        = t := by
  obtain ⟨l, hl, hf⟩ := chunk_text_filter cs 0 src pre post t h1 (by omega) (by omega)
  refine ⟨l, hl, ?_⟩
  have hstep : ((cs : Int) - 0).toNat = cs.toNat := by omega
  rw [hf, hstep]
  exact pageChunks_join cs.toNat (pre.length + 1) (src.getD ("")) t (by omega)

theorem C6_zero_overlap_witness :
    ∃ l, chunk_text ([] ++ "abcdefg".data :: []) 3 0 none = Except.ok l ∧
      ((l.filter fun c => decide (c.page = ([] : List (List Char)).length + 1)).map
        fun c => c.text).flatten = "abcdefg".data :=
  C6_zero_overlap 3 none [] [] "abcdefg".data (by decide)

/-- C7: normalizer postcondition. For every input, `_clean_text` returns
exactly the input with its leading and trailing whitespace runs removed and
every remaining maximal run of whitespace characters (Python's whitespace
class, newlines and tabs included) replaced by a single ASCII space, all
other characters preserved in order (`specNormalize`); consequently the
output has no leading or trailing whitespace, no two adjacent whitespace
characters (no internal run longer than one space), and every whitespace
character in it is the ASCII space; and the spec's concrete scenario holds:
the raw text with doubled spaces, newlines and a tab normalises to
Hello world foo. -/
theorem C7_normalizer (s : List Char) :
    _clean_text s = specNormalize s ∧
    (∀ c, (_clean_text s).head? = some c → isSpaceChar c = false) ∧
    (∀ c, (_clean_text s).getLast? = some c → isSpaceChar c = false) ∧
    List.Chain' (fun a b => ¬(isSpaceChar a = true ∧ isSpaceChar b = true)) (_clean_text s) ∧
    (∀ c ∈ _clean_text s, isSpaceChar c = true → c = ' ') ∧
    _clean_text ("  Hello\n\nworld \t foo  ".data) = "Hello world foo".data := by
  have h := joinWords_props (splitWs (pyStrip s)) (splitWsAux_words (pyStrip s) [] (by simp))
  exact ⟨clean_text_eq_specNormalize s, h.1, h.2.1, h.2.2.1, h.2.2.2, by decide⟩

/-- C8: empty pages contribute no records and do not disturb the others. With
valid parameters, chunking `pre ++ [""] ++ post` returns exactly the records
of `pre` (pages numbered from 1) followed by the records of `post` with their
original positional page numbers (numbered from `pre.length + 2`): the empty
page's position is simply skipped over in the output. -/
theorem C8_empty_page (cs ov : Int) (src : Option String)
    (pre post : List (List Char))
    (h1 : 0 < cs) (h2 : 0 ≤ ov) (h3 : ov < cs) :
    chunk_text (pre ++ [] :: post) cs ov src =
      Except.ok
        (chunkPagesFrom cs.toNat (cs - ov).toNat (src.getD ("")) 1 pre ++
         chunkPagesFrom cs.toNat (cs - ov).toNat (src.getD ("")) (pre.length + 2) post) := by
  rw [chunk_text_ok _ _ _ _ h1 h2 h3, chunkPagesFrom_append]
  have h0 : pageChunks cs.toNat (cs - ov).toNat (1 + pre.length) (src.getD (""))
      ([] : List Char) = [] := rfl
  have hidx : 1 + pre.length + 1 = pre.length + 2 := by omega
  have hsplit : chunkPagesFrom cs.toNat (cs - ov).toNat (src.getD ("")) (1 + pre.length)
      ([] :: post) =
      chunkPagesFrom cs.toNat (cs - ov).toNat (src.getD ("")) (pre.length + 2) post := by
    show pageChunks cs.toNat (cs - ov).toNat (1 + pre.length) (src.getD ("")) [] ++
      chunkPagesFrom cs.toNat (cs - ov).toNat (src.getD ("")) (1 + pre.length + 1) post = _
    rw [h0, List.nil_append, hidx]
  rw [hsplit]

theorem C8_empty_page_witness :
    chunk_text (["ab".data] ++ [] :: ["cd".data]) 4 2 none =
      Except.ok
        (chunkPagesFrom (4 : Int).toNat ((4 : Int) - 2).toNat
          ((none : Option String).getD ("")) 1 ["ab".data] ++
         chunkPagesFrom (4 : Int).toNat ((4 : Int) - 2).toNat
          ((none : Option String).getD ("")) ((["ab".data] : List (List Char)).length + 2)
          ["cd".data]) :=
  C8_empty_page 4 2 none ["ab".data] ["cd".data] (by decide) (by decide) (by decide)

/-- C9: `chunk_id` uniqueness. Whenever `chunk_text` returns a record list,
the `chunk_id` strings of its records are pairwise distinct across the whole
output sequence. -/
theorem C9_unique_ids (cs ov : Int) (pages : List (List Char)) (src : Option String)
    (l : List Chunk) (h : chunk_text pages cs ov src = Except.ok l) :
    (l.map fun c => c.chunk_id).Nodup := by
  unfold chunk_text at h
  by_cases h1 : cs ≤ 0
  · rw [if_pos h1] at h; exact absurd h (by simp)
  · by_cases h2 : ov < 0 ∨ ov ≥ cs
    · rw [if_neg h1, if_pos h2] at h; exact absurd h (by simp)
    · rw [if_neg h1, if_neg h2] at h
      have hl : chunkPagesFrom cs.toNat (cs - ov).toNat (src.getD ("")) 1 pages = l := by
        injection h
      subst hl
      have hcs : 0 < cs.toNat := by omega
      have hstep : 0 < (cs - ov).toNat := by omega
      exact chunkPagesFrom_ids_nodup cs.toNat (cs - ov).toNat (src.getD ("")) hcs hstep pages 1

theorem C9_unique_ids_witness :
    (([⟨"ab".data, 1, "1-0", ""⟩] : List Chunk).map fun c => c.chunk_id).Nodup :=
  C9_unique_ids 4 2 ["ab".data] none [⟨"ab".data, 1, "1-0", ""⟩] (by rfl)

/-- C10: exact per-page characterisation. With valid parameters and `step =
chunk_size - overlap`, the output of `chunk_text` is exactly: for each page
`i` (1-based) of text `T`, `ceil(|T| / step)` records whose `j`-th member has
text `T[j*step : j*step + chunk_size]`, id `"i-j"`, page `i` and the given
source; each such slice has length `min(chunk_size, |T| - j*step)`, and every
character position of a page is covered by at least one slice. -/
theorem C10_characterisation (cs ov : Int) (pages : List (List Char)) (src : Option String)
    (h1 : 0 < cs) (h2 : 0 ≤ ov) (h3 : ov < cs) :
    chunk_text pages cs ov src =
      Except.ok (specChunks cs.toNat (cs - ov).toNat (src.getD ("")) pages) ∧
    (∀ (t : List Char) (j : Nat),
      ((t.drop (j * (cs - ov).toNat)).take cs.toNat).length =
        min cs.toNat (t.length - j * (cs - ov).toNat)) ∧
    (∀ (t : List Char) (pos : Nat), pos < t.length →
      ∃ j < ceilNat t.length (cs - ov).toNat,
        j * (cs - ov).toNat ≤ pos ∧ pos < j * (cs - ov).toNat + cs.toNat) := by
  refine ⟨?_, ?_, ?_⟩
  · rw [chunk_text_ok _ _ _ _ h1 h2 h3]
    unfold specChunks
    rw [chunkPagesFrom_eq_spec _ _ _ (by omega) (by omega)]
  · intro t j
    simp [List.length_take, List.length_drop]
  · intro t pos hpos
    exact slice_coverage t.length (cs - ov).toNat cs.toNat pos (by omega) (by omega) hpos

theorem C10_characterisation_witness :
    chunk_text ["abcdefghij".data] 4 2 (some ("doc.pdf")) =
      Except.ok (specChunks (4 : Int).toNat ((4 : Int) - 2).toNat
        ((some ("doc.pdf") : Option String).getD ("")) ["abcdefghij".data]) ∧
    (∀ (t : List Char) (j : Nat),
      ((t.drop (j * ((4 : Int) - 2).toNat)).take (4 : Int).toNat).length =
        min (4 : Int).toNat (t.length - j * ((4 : Int) - 2).toNat)) ∧
    (∀ (t : List Char) (pos : Nat), pos < t.length →
      ∃ j < ceilNat t.length (((4 : Int) - 2).toNat),
        j * ((4 : Int) - 2).toNat ≤ pos ∧
          pos < j * ((4 : Int) - 2).toNat + (4 : Int).toNat) :=
  C10_characterisation 4 2 ["abcdefghij".data] (some ("doc.pdf"))
    (by decide) (by decide) (by decide)
